import Mathlib

/-!
Shallow embedding of the `exhaustigen` crate (`src/lib.rs`): a backtracking
odometer `Gen` with the two primitives `done` and `gen`, plus the combinator
family built on them.  Rust `usize` is modelled as `Nat`; `Vec<(usize, usize)>`
as `List (Nat × Nat)` (a frame is `(current, bound)`); Rust panics (index out
of bounds, subtraction overflow in debug builds) are modelled as `Option`
failure.  The lazy iterators returned by the combinators are materialized
eagerly into lists, preserving the order in which the underlying callbacks
run, exactly as the crate's own tests do with `.collect()`.
-/

structure Gen where
  started : Bool
  v : List (Nat × Nat)
  p : Nat
deriving Repr, DecidableEq

def Gen.new : Gen := { started := false, v := [], p := 0 }

/-- The reverse index scan inside `done`: `for i in (0..self.v.len()).rev()`,
with `n` the number of indices still to try (so index `n - 1` is tried first).
On the first index `i` with `v[i].0 < v[i].1` it increments `v[i].0`,
truncates to `i + 1` frames, and reports the new frame vector. -/
def doneScan (v : List (Nat × Nat)) : Nat → Option (List (Nat × Nat))
  | 0 => none
  | n+1 =>
    if (v.getD n (0, 0)).1 < (v.getD n (0, 0)).2 then
      some ((v.set n ((v.getD n (0, 0)).1 + 1, (v.getD n (0, 0)).2)).take (n+1))
    else doneScan v n

def Gen.done (g : Gen) : Gen × Bool :=
  if !g.started then ({ g with started := true }, false)
  else
    match doneScan g.v g.v.length with
    | some v2 => ({ g with v := v2, p := 0 }, false)
    | none => (g, true)

def Gen.gen (g : Gen) (bound : Nat) : Gen × Nat :=
  let v1 := if g.p = g.v.length then g.v ++ [(0, 0)] else g.v
  let cur := (v1.getD g.p (0, 0)).1
  ({ g with v := v1.set g.p (cur, bound), p := g.p + 1 }, cur)

def Gen.flip (g : Gen) : Gen × Bool :=
  let (g1, x) := g.gen 1
  (g1, x == 1)

/-- Embeds `pick`: `&input[self.gen(input.len() - 1)]`.  On empty input the bound
computation `input.len() - 1` underflows (a panic in Rust), and an index
beyond the input length panics as well; both are modelled as `none`. -/
def Gen.pick (g : Gen) (input : List α) : Option (Gen × α) :=
  if input.length = 0 then none
  else
    let (g1, i) := g.gen (input.length - 1)
    if h : i < input.length then some (g1, input.get ⟨i, h⟩) else none

/-- Embeds `gen_fixed_by`: `std::iter::repeat_with(move || f(self)).take(fixed)`,
materialized: `fixed` sequential calls of the callback, collected in order. -/
def Gen.gen_fixed_by (g : Gen) (fixed : Nat) (f : Gen → Gen × α) : Gen × List α :=
  match fixed with
  | 0 => (g, [])
  | n+1 =>
    let (g1, x) := f g
    let (g2, xs) := Gen.gen_fixed_by g1 n f
    (g2, x :: xs)

def Gen.gen_bound_by (g : Gen) (bound : Nat) (f : Gen → Gen × α) : Gen × List α :=
  let (g1, fixed) := g.gen bound
  g1.gen_fixed_by fixed f

def Gen.gen_elts (g : Gen) (len_bound elt_bound : Nat) : Gen × List Nat :=
  g.gen_bound_by len_bound (fun g => g.gen elt_bound)

/-- Embeds `gen_fixed_comb`: `gen_fixed_by(fixed, |g| g.pick(input))`, with the
fallible `pick` callback threaded through the same `fixed`-fold shape. -/
def Gen.gen_fixed_comb (g : Gen) (fixed : Nat) (input : List α) :
    Option (Gen × List α) :=
  match fixed with
  | 0 => some (g, [])
  | n+1 =>
    match g.pick input with
    | none => none
    | some (g1, x) =>
      match Gen.gen_fixed_comb g1 n input with
      | none => none
      | some (g2, xs) => some (g2, x :: xs)

def Gen.gen_bound_comb (g : Gen) (bound : Nat) (input : List α) :
    Option (Gen × List α) :=
  let (g1, fixed) := g.gen bound
  g1.gen_fixed_comb fixed input

def Gen.gen_comb (g : Gen) (input : List α) : Option (Gen × List α) :=
  g.gen_bound_comb input.length input

/-- Embeds `gen_subset`: `(0..input.len()).filter_map(|i| if self.flip() { Some(&input[i]) } else { None })`,
materialized as a structural recursion over `input` (one `flip` per element,
in order, keeping the element exactly when the flip came out `true`). -/
def Gen.gen_subset (g : Gen) (input : List α) : Gen × List α :=
  match input with
  | [] => (g, [])
  | x :: rest =>
    let (g1, b) := g.flip
    let (g2, xs) := Gen.gen_subset g1 rest
    (g2, if b then x :: xs else xs)

/-- The closure body of `gen_perm`, iterated `steps` times with the mutable
local `idxs` made explicit: `&input[idxs.remove(g.gen(idxs.len() - 1))]`.
`idxs.len() - 1` on an empty `idxs`, `Vec::remove` past the end, and indexing
`input` out of range all panic in Rust and are modelled as `none`. -/
def permStep [Inhabited α] (input : List α) : Nat → List Nat → Gen → Option (Gen × List α)
  | 0, _, g => some (g, [])
  | n+1, idxs, g =>
    if idxs.length = 0 then none
    else
      let (g1, j) := g.gen (idxs.length - 1)
      if j < idxs.length then
        let i := idxs.getD j 0
        if i < input.length then
          match permStep input n (idxs.eraseIdx j) g1 with
          | none => none
          | some (g2, xs) => some (g2, input.getD i default :: xs)
        else none
      else none

/-- Embeds `gen_perm`: `idxs = (0..input.len()).collect()`, then
`gen_fixed_by(input.len(), |g| &input[idxs.remove(g.gen(idxs.len() - 1))])`. -/
def Gen.gen_perm [Inhabited α] (g : Gen) (input : List α) : Option (Gen × List α) :=
  permStep input input.length (List.range input.length) g

/-- The `while !gen.done() { body }` driver used by the crate's tests,
collecting each run's materialized output.  `fuel` caps the number of loop
iterations (the theorems below show any `fuel` at least the size of the
enumerated space yields the full, stable result); a failing (panicking) run
yields `none`. -/
def driveO (body : Gen → Option (Gen × α)) : Nat → Gen → Option (List α)
  | 0, _ => some []
  | fuel+1, g =>
    match g.done with
    | (_, true) => some []
    | (g1, false) =>
      match body g1 with
      | none => none
      | some (g2, out) =>
        match driveO body fuel g2 with
        | none => none
        | some outs => some (out :: outs)

/-- Modelled from the spec: the odometer step of `done` on a non-fresh
enumerator — scan the path from the last frame toward the first, and for the
first frame found with `current < bound` increment its `current` by 1 and
discard all frames after it; `none` when every frame is exhausted.  Written
as a structural recursion (the recursive call tries the deeper frames first,
exactly like the reverse index loop in the source). -/
def bump : List (Nat × Nat) → Option (List (Nat × Nat))
  | [] => none
  | f :: fs =>
    match bump fs with
    | some fs2 => some (f :: fs2)
    | none => if f.1 < f.2 then some [(f.1 + 1, f.2)] else none

theorem doneScan_cons (f : Nat × Nat) (fs : List (Nat × Nat)) (n : Nat) :
    doneScan (f :: fs) (n+1) =
      match doneScan fs n with
      | some v2 => some (f :: v2)
      | none => if f.1 < f.2 then some [(f.1 + 1, f.2)] else none := by
  induction n with
  | zero => simp [doneScan]
  | succ n ih =>
    show doneScan (f :: fs) (n+2) = _
    rw [doneScan]
    conv_rhs => rw [doneScan]
    rw [List.getD_cons_succ, List.set_cons_succ, List.take_succ_cons]
    by_cases h : (fs.getD n (0, 0)).1 < (fs.getD n (0, 0)).2
    · rw [if_pos h, if_pos h]
    · rw [if_neg h, if_neg h]
      exact ih

theorem doneScan_eq_bump (v : List (Nat × Nat)) : doneScan v v.length = bump v := by
  induction v with
  | nil => rfl
  | cons f fs ih =>
    show doneScan (f :: fs) (fs.length + 1) = _
    rw [doneScan_cons, bump, ih]

/-- On a started enumerator, `done` is exactly the odometer step `bump`. -/
theorem Gen.done_started (g : Gen) (h : g.started = true) :
    g.done = match bump g.v with
             | some v2 => ({ g with v := v2, p := 0 }, false)
             | none => (g, true) := by
  rw [Gen.done, h, doneScan_eq_bump]
  rfl

theorem bump_eq_none_iff (v : List (Nat × Nat)) :
    bump v = none ↔ ∀ f ∈ v, f.2 ≤ f.1 := by
  induction v with
  | nil => simp [bump]
  | cons f fs ih =>
    rw [bump]
    cases hb : bump fs with
    | some fs2 =>
      simp only [hb]
      constructor
      · intro h; cases h
      · intro h
        exact absurd (ih.mpr fun x hx => h x (List.mem_cons_of_mem _ hx))
          (by simp [hb])
    | none =>
      simp only [hb]
      by_cases hf : f.1 < f.2
      · simp [hf, Nat.not_le.mpr hf]
      · simp only [hf, if_false, true_iff]
        intro x hx
        rcases List.mem_cons.mp hx with rfl | hx
        · exact Nat.not_lt.mp hf
        · exact (ih.mp hb) x hx

theorem bump_preserves_le (v : List (Nat × Nat)) (hinv : ∀ f ∈ v, f.1 ≤ f.2)
    (v2 : List (Nat × Nat)) (h : bump v = some v2) : ∀ f ∈ v2, f.1 ≤ f.2 := by
  induction v generalizing v2 with
  | nil => cases h
  | cons f fs ih =>
    rw [bump] at h
    cases hb : bump fs with
    | some fs2 =>
      rw [hb] at h
      cases h
      intro x hx
      rcases List.mem_cons.mp hx with rfl | hx
      · exact hinv x (List.mem_cons_self _ _)
      · exact ih (fun y hy => hinv y (List.mem_cons_of_mem _ hy)) fs2 hb x hx
    | none =>
      rw [hb] at h
      by_cases hf : f.1 < f.2
      · rw [if_pos hf] at h
        cases h
        intro x hx
        rcases List.mem_cons.mp hx with rfl | hx
        · exact hf
        · cases hx
      · rw [if_neg hf] at h
        cases h

theorem mem_set_cases {l : List α} {n : Nat} {a b : α} (h : b ∈ l.set n a) :
    b ∈ l ∨ b = a := by
  induction l generalizing n with
  | nil => cases h
  | cons x xs ih =>
    cases n with
    | zero =>
      rcases List.mem_cons.mp h with rfl | h
      · exact Or.inr rfl
      · exact Or.inl (List.mem_cons_of_mem _ h)
    | succ n =>
      rcases List.mem_cons.mp h with rfl | h
      · exact Or.inl (List.mem_cons_self _ _)
      · rcases ih h with h | h
        · exact Or.inl (List.mem_cons_of_mem _ h)
        · exact Or.inr h

theorem getD_append_cons (l : List α) (x : α) (r : List α) (d : α) :
    (l ++ x :: r).getD l.length d = x := by
  induction l with
  | nil => rfl
  | cons y ys ih =>
    rw [List.length_cons, List.cons_append, List.getD_cons_succ]
    exact ih

theorem set_append_cons (l : List α) (x : α) (r : List α) (y : α) :
    (l ++ x :: r).set l.length y = l ++ y :: r := by
  induction l with
  | nil => rfl
  | cons z zs ih =>
    rw [List.length_cons, List.cons_append, List.set_cons_succ, ih,
      List.cons_append]

theorem bump_cons (f : Nat × Nat) (fs : List (Nat × Nat)) :
    bump (f :: fs) =
      match bump fs with
      | some fs2 => some (f :: fs2)
      | none => if f.1 < f.2 then some [(f.1 + 1, f.2)] else none := rfl

/-! ### Claims C1 and C2: the primitives -/

/-- C1 (counterexample): `gen(bound)` does not always return a value in
`[0, bound]`.  After `done; gen 1; done` the single frame holds
`(current, bound) = (1, 1)`; a subsequent `gen 0` at that position overwrites
the bound with `0` and returns the stored current `1 > 0`. -/
theorem claim_c1_counterexample :
    ((((Gen.new.done).1.gen 1).1.done).1.gen 0).2 = 1 ∧
      ¬ ((((Gen.new.done).1.gen 1).1.done).1.gen 0).2 ≤ 0 := by
  decide

/-- C1 (amended): `gen(bound)` returns the current value of the frame at the
cursor (`0` for a freshly pushed frame), which lies in `[0, bound]` provided
that stored current does not exceed `bound` — as is the case whenever the
caller never shrinks the bound at a position below the frame's current.
Under the frame invariant `current ≤ bound`, both `gen` and `done` preserve
the invariant for every frame in the path. -/
theorem claim_c1 (g : Gen) (bound : Nat)
    (hcur : (g.v.getD g.p (0, 0)).1 ≤ bound)
    (hinv : ∀ f ∈ g.v, f.1 ≤ f.2) :
    (g.gen bound).2 ≤ bound ∧ (∀ f ∈ (g.gen bound).1.v, f.1 ≤ f.2) ∧
      (∀ f ∈ (g.done).1.v, f.1 ≤ f.2) := by
  have hret : (g.gen bound).2 ≤ bound := by
    by_cases hp : g.p = g.v.length
    · simp only [Gen.gen, if_pos hp]
      rw [hp, show g.v ++ [((0:Nat), (0:Nat))] = g.v ++ (0, 0) :: [] from rfl,
        getD_append_cons]
      exact Nat.zero_le _
    · simp only [Gen.gen, if_neg hp]
      exact hcur
  refine ⟨hret, ?_, ?_⟩
  · intro f hf
    by_cases hp : g.p = g.v.length
    · simp only [Gen.gen, if_pos hp] at hf hret
      rcases mem_set_cases hf with hf | hf
      · rcases List.mem_append.mp hf with hf | hf
        · exact hinv f hf
        · rcases List.mem_singleton.mp hf with rfl
          exact Nat.zero_le _
      · subst hf; exact hret
    · simp only [Gen.gen, if_neg hp] at hf hret
      rcases mem_set_cases hf with hf | hf
      · exact hinv f hf
      · subst hf; exact hret
  · intro f hf
    rw [Gen.done] at hf
    by_cases hs : g.started
    · simp only [hs, Bool.not_true, Bool.false_eq_true, if_false] at hf
      rw [doneScan_eq_bump] at hf
      cases hb : bump g.v with
      | some v2 =>
        rw [hb] at hf
        exact bump_preserves_le g.v hinv v2 hb f hf
      | none =>
        rw [hb] at hf
        exact hinv f hf
    · simp only [Bool.not_eq_true] at hs
      simp only [hs, Bool.not_false, if_true] at hf
      exact hinv f hf

theorem claim_c1_witness :
    ((Gen.new.v.getD Gen.new.p (0, 0)).1 ≤ 5) ∧ (∀ f ∈ Gen.new.v, f.1 ≤ f.2) ∧
      ((Gen.new.gen 5).2 ≤ 5 ∧ (∀ f ∈ (Gen.new.gen 5).1.v, f.1 ≤ f.2) ∧
        (∀ f ∈ (Gen.new.done).1.v, f.1 ≤ f.2)) :=
  ⟨by decide, by decide, claim_c1 Gen.new 5 (by decide) (by decide)⟩

/-- C2 (counterexample): on a started enumerator, `done` can return terminal
while some frame has `current ≠ bound`.  After `done; gen 1; done; gen 0` the
path is `[(1, 0)]` (the bound at the position was shrunk below the stored
current); the next `done` finds no frame with `current < bound` and reports
terminal even though `1 ≠ 0`. -/
theorem claim_c2_counterexample :
    ((((((Gen.new.done).1.gen 1).1.done).1.gen 0).1).done).2 = true ∧
      ¬ (∀ f ∈ (((((Gen.new.done).1.gen 1).1.done).1.gen 0).1).v, f.1 = f.2) := by
  decide

/-- C2 (amended): every `done` call on a started enumerator is exactly the
variable-radix odometer step `bump` — scan the path from the last frame
toward the first, increment the first frame found with `current < bound`,
discard all frames after it, reset the cursor to 0, and report not-terminal —
and it reports terminal if and only if no frame has `current < bound`
(equivalently, every frame has `current = bound`, provided every frame
satisfies the invariant `current ≤ bound`). -/
theorem claim_c2 (g : Gen) (h : g.started = true) :
    g.done = (match bump g.v with
              | some v2 => ({ g with v := v2, p := 0 }, false)
              | none => (g, true)) ∧
      ((g.done).2 = true ↔ ∀ f ∈ g.v, f.2 ≤ f.1) ∧
      ((∀ f ∈ g.v, f.1 ≤ f.2) → ((g.done).2 = true ↔ ∀ f ∈ g.v, f.1 = f.2)) := by
  have hd := Gen.done_started g h
  refine ⟨hd, ?_, ?_⟩
  · rw [hd]
    cases hb : bump g.v with
    | some v2 =>
      simp only [hb]
      constructor
      · intro hfalse; cases hfalse
      · intro hall
        exact absurd ((bump_eq_none_iff g.v).mpr hall) (by simp [hb])
    | none =>
      simp only [hb]
      simp only [true_iff]
      exact (bump_eq_none_iff g.v).mp hb
  · intro hinv
    rw [hd]
    cases hb : bump g.v with
    | some v2 =>
      simp only [hb]
      constructor
      · intro hfalse; cases hfalse
      · intro hall
        exact absurd ((bump_eq_none_iff g.v).mpr
          (fun f hf => (hall f hf).ge)) (by simp [hb])
    | none =>
      simp only [hb, true_iff]
      intro f hf
      exact Nat.le_antisymm (hinv f hf) ((bump_eq_none_iff g.v).mp hb f hf)

theorem claim_c2_witness :
    (Gen.mk true [(0, 1)] 3).started = true ∧
      ((Gen.mk true [(0, 1)] 3).done =
          (match bump (Gen.mk true [(0, 1)] 3).v with
           | some v2 => ({ Gen.mk true [(0, 1)] 3 with v := v2, p := 0 }, false)
           | none => (Gen.mk true [(0, 1)] 3, true)) ∧
        (((Gen.mk true [(0, 1)] 3).done).2 = true ↔
          ∀ f ∈ (Gen.mk true [(0, 1)] 3).v, f.2 ≤ f.1) ∧
        ((∀ f ∈ (Gen.mk true [(0, 1)] 3).v, f.1 ≤ f.2) →
          (((Gen.mk true [(0, 1)] 3).done).2 = true ↔
            ∀ f ∈ (Gen.mk true [(0, 1)] 3).v, f.1 = f.2))) :=
  ⟨rfl, claim_c2 (Gen.mk true [(0, 1)] 3) rfl⟩

/-! ### Claim C7: empty-input behaviour of pick and the combination family -/

/-- C7 (counterexample): `gen_comb` with an empty input does not fail fast.
The computed bound is `input.len() = 0` (not `-1`), `gen(0)` yields length 0,
no `pick` ever runs, and the whole `while !done()` enumeration completes
faultlessly, producing exactly one run with the empty sequence. -/
theorem claim_c7_counterexample :
    Gen.gen_comb (Gen.new.done).1 ([] : List Nat) =
        some (Gen.mk true [(0, 0)] 1, []) ∧
      driveO (fun g => Gen.gen_comb g ([] : List Nat)) 2 Gen.new = some [[]] := by
  decide

/-- C7 (amended): `pick` on an empty input computes the underflowing bound
`input.len() - 1` and fails fast (no value is produced), and so does
`gen_fixed_comb` whenever its fixed length is positive (it routes each
element through `pick`); but `gen_comb` on an empty input computes bound `0`,
generates length `0`, never reaches `pick`, and completes without fault. -/
theorem claim_c7 (α : Type) (g : Gen) (n : Nat) (hn : 0 < n) :
    Gen.pick g ([] : List α) = none ∧
      Gen.gen_fixed_comb g n ([] : List α) = none := by
  constructor
  · rw [Gen.pick]
    simp
  · match n, hn with
    | n+1, _ =>
      rw [Gen.gen_fixed_comb]
      have hp : Gen.pick g ([] : List α) = none := by rw [Gen.pick]; simp
      rw [hp]

theorem claim_c7_witness :
    0 < 1 ∧ (Gen.pick Gen.new ([] : List Nat) = none ∧
      Gen.gen_fixed_comb Gen.new 1 ([] : List Nat) = none) :=
  ⟨by decide, claim_c7 Nat Gen.new 1 (by decide)⟩

/-! ### Claim C8: determinism -/

/-- A single replayable API call, with all arguments recorded (element inputs
specialized to `Nat` sequences). -/
inductive Call where
  | done
  | gen (bound : Nat)
  | flip
  | pick (input : List Nat)
  | elts (len_bound elt_bound : Nat)
  | comb (input : List Nat)
  | boundComb (bound : Nat) (input : List Nat)
  | fixedComb (fixed : Nat) (input : List Nat)
  | perm (input : List Nat)
  | subset (input : List Nat)
deriving Repr, DecidableEq

/-- The observable result of one call. -/
inductive Res where
  | bool (x : Bool)
  | nat (x : Nat)
  | natOpt (x : Option Nat)
  | seq (xs : List Nat)
  | seqOpt (xs : Option (List Nat))
deriving Repr, DecidableEq

def execCall (c : Call) (g : Gen) : Gen × Res :=
  match c with
  | .done => let (g1, d) := g.done; (g1, .bool d)
  | .gen bound => let (g1, x) := g.gen bound; (g1, .nat x)
  | .flip => let (g1, x) := g.flip; (g1, .bool x)
  | .pick input =>
    match g.pick input with
    | some (g1, x) => (g1, .natOpt (some x))
    | none => (g, .natOpt none)
  | .elts len_bound elt_bound =>
    let (g1, xs) := g.gen_elts len_bound elt_bound; (g1, .seq xs)
  | .comb input =>
    match g.gen_comb input with
    | some (g1, xs) => (g1, .seqOpt (some xs))
    | none => (g, .seqOpt none)
  | .boundComb bound input =>
    match g.gen_bound_comb bound input with
    | some (g1, xs) => (g1, .seqOpt (some xs))
    | none => (g, .seqOpt none)
  | .fixedComb fixed input =>
    match g.gen_fixed_comb fixed input with
    | some (g1, xs) => (g1, .seqOpt (some xs))
    | none => (g, .seqOpt none)
  | .perm input =>
    match g.gen_perm input with
    | some (g1, xs) => (g1, .seqOpt (some xs))
    | none => (g, .seqOpt none)
  | .subset input =>
    let (g1, xs) := g.gen_subset input; (g1, .seq xs)

/-- The trace of results of replaying a call sequence against an enumerator. -/
def execTrace : List Call → Gen → List Res
  | [], _ => []
  | c :: cs, g =>
    let (g1, r) := execCall c g
    r :: execTrace cs g1

/-- C8: replaying an identical call sequence against two freshly-constructed
enumerators yields identical results at every step — the state transition is
a pure function of the previous state and the call, with no entropy input. -/
theorem claim_c8 (cs : List Call) (g1 g2 : Gen)
    (h1 : g1 = Gen.new) (h2 : g2 = Gen.new) :
    execTrace cs g1 = execTrace cs g2 := by
  subst h1; subst h2; rfl

theorem claim_c8_witness :
    Gen.new = Gen.new ∧
      execTrace [Call.done, Call.gen 5, Call.flip] Gen.new =
        execTrace [Call.done, Call.gen 5, Call.flip] Gen.new :=
  ⟨rfl, claim_c8 [Call.done, Call.gen 5, Call.flip] Gen.new Gen.new rfl rfl⟩

/-! ### Claim C9: the first done call -/

/-- C9: the first `done()` call on a freshly constructed enumerator returns
not-terminal, sets `started` to true, and leaves the path empty with no
frames recorded (the cursor stays 0). -/
theorem claim_c9 :
    (Gen.new.done).2 = false ∧ (Gen.new.done).1.started = true ∧
      (Gen.new.done).1.v = [] ∧ (Gen.new.done).1.p = 0 := by
  decide

/-! ### Claim C10: gen_perm on empty input -/

/-- C10: `gen_perm` with an empty input succeeds on any enumerator state,
producing the empty sequence and leaving the state untouched: the fixed
length is 0, so the per-element callback (whose `idxs.len() - 1` bound
computation would underflow) is never invoked. -/
theorem claim_c10 (α : Type) [Inhabited α] (g : Gen) :
    Gen.gen_perm g ([] : List α) = some (g, []) := rfl

/-! ### Choice trees

A test body driven by the enumerator is abstracted as a choice tree: each
`gen` call is a node (whose child is selected by the value `gen` returns, and
whose branching factor is `bound + 1`), and the end of a run is a leaf
carrying the run's materialized output.  The children function is total over
`Nat` because `gen` on an adversarially prepared state can return any stored
current; during a well-formed enumeration only children `0..bound` are ever
taken.  The combinators `gen_elts`, `gen_perm` and `gen_subset` are proved
below to run exactly like fixed trees of this kind, and the `while !done()`
loop is proved to emit the leaves of the tree in depth-first order. -/

inductive CTree (α : Type) where
  | leaf (out : α)
  | node (bound : Nat) (k : Nat → CTree α)

def CTree.mapL (f : α → β) : CTree α → CTree β
  | .leaf a => .leaf (f a)
  | .node b k => .node b (fun x => (k x).mapL f)

/-- The leaves of the tree in depth-first order: the order in which a full
enumeration visits the outcomes. -/
def CTree.leaves : CTree α → List α
  | .leaf a => [a]
  | .node b k => (List.range (b+1)).flatMap (fun i => (k i).leaves)

/-- One run of the test body described by the tree. -/
def runTree : CTree α → Gen → Gen × α
  | .leaf a, g => (g, a)
  | .node b k, g =>
    let (g1, x) := g.gen b
    runTree (k x) g1

/-- The stored currents of a frame list. -/
def curs (fs : List (Nat × Nat)) : List Nat := fs.map Prod.fst

/-- The frames recorded by one run that replays the stored choices `cs` and
then continues first-child (current 0) down to a leaf: each visited node
contributes a frame `(choice, bound)`. -/
def pathD : CTree α → List Nat → List (Nat × Nat)
  | .leaf _, _ => []
  | .node b k, [] => (0, b) :: pathD (k 0) []
  | .node b k, c :: cs => (c, b) :: pathD (k c) cs

/-- The output of the leaf reached by replaying `cs` and then continuing
first-child down to a leaf. -/
def outD : CTree α → List Nat → α
  | .leaf a, _ => a
  | .node _ k, [] => outD (k 0) []
  | .node _ k, c :: cs => outD (k c) cs

/-- Predicate that `cs` does not overrun a leaf of the tree (every proper prefix of it sits
at a node).  This is all one run needs in order to consume every stored
frame. -/
def fits : CTree α → List Nat → Bool
  | _, [] => true
  | .leaf _, _ :: _ => false
  | .node _ k, c :: cs => fits (k c) cs

/-- A valid prefix: does not overrun a leaf and takes only children within
each node's bound. -/
def isVP : CTree α → List Nat → Bool
  | _, [] => true
  | .leaf _, _ :: _ => false
  | .node b k, c :: cs => decide (c ≤ b) && isVP (k c) cs

/-- A valid complete leaf path: lands exactly on a leaf, taking only children
within each node's bound. -/
def isVLP : CTree α → List Nat → Bool
  | .leaf _, [] => true
  | .leaf _, _ :: _ => false
  | .node _ _, [] => false
  | .node b k, c :: cs => decide (c ≤ b) && isVLP (k c) cs

/-- The leaves visited strictly after the leaf at path `cs`, in depth-first
order. -/
def leavesAfter : CTree α → List Nat → List α
  | .leaf _, _ => []
  | .node _ _, [] => []
  | .node b k, c :: cs =>
    leavesAfter (k c) cs ++ (List.range' (c+1) (b - c)).flatMap (fun j => (k j).leaves)

theorem fits_of_isVP (t : CTree α) (cs : List Nat) (h : isVP t cs = true) :
    fits t cs = true := by
  induction t generalizing cs with
  | leaf a => cases cs with
    | nil => rfl
    | cons c cs => exact absurd h (by simp [isVP])
  | node b k ih =>
    cases cs with
    | nil => rfl
    | cons c cs =>
      rw [isVP, Bool.and_eq_true] at h
      rw [fits]
      exact ih c cs h.2

theorem isVP_of_isVLP (t : CTree α) (cs : List Nat) (h : isVLP t cs = true) :
    isVP t cs = true := by
  induction t generalizing cs with
  | leaf a => cases cs with
    | nil => rfl
    | cons c cs => exact absurd h (by simp [isVLP])
  | node b k ih =>
    cases cs with
    | nil => exact absurd h (by simp [isVLP])
    | cons c cs =>
      rw [isVLP, Bool.and_eq_true] at h
      rw [isVP, Bool.and_eq_true]
      exact ⟨h.1, ih c cs h.2⟩

theorem leaves_mapL (f : α → β) (t : CTree α) :
    (t.mapL f).leaves = t.leaves.map f := by
  induction t with
  | leaf a => rfl
  | node b k ih =>
    rw [CTree.mapL, CTree.leaves, CTree.leaves, List.map_flatMap]
    exact List.flatMap_congr (fun i _ => ih i)

theorem runTree_mapL (f : α → β) (t : CTree α) (g : Gen) :
    runTree (t.mapL f) g = ((runTree t g).1, f (runTree t g).2) := by
  induction t generalizing g with
  | leaf a => rfl
  | node b k ih =>
    rw [CTree.mapL, runTree, runTree]
    exact ih _ _

/-- Calling `gen` at a fresh position (cursor at the end of the path) pushes a frame
`(0, bound)` and returns 0. -/
theorem gen_push (s : Bool) (pre : List (Nat × Nat)) (b : Nat) :
    Gen.gen (Gen.mk s pre pre.length) b =
      (Gen.mk s (pre ++ [(0, b)]) (pre.length + 1), 0) := by
  simp [Gen.gen, getD_append_cons, set_append_cons]

/-- Calling `gen` at an already-recorded position overwrites the frame's bound,
keeps its current, and returns the current. -/
theorem gen_exist (s : Bool) (pre : List (Nat × Nat)) (f : Nat × Nat)
    (rest : List (Nat × Nat)) (b : Nat) :
    Gen.gen (Gen.mk s (pre ++ f :: rest) pre.length) b =
      (Gen.mk s (pre ++ (f.1, b) :: rest) (pre.length + 1), f.1) := by
  have hne : ¬ pre.length = (pre ++ f :: rest).length := by
    simp [List.length_append]
  simp only [Gen.gen, if_neg hne]
  rw [getD_append_cons, set_append_cons]

theorem fits_nil (t : CTree α) : fits t [] = true := by cases t <;> rfl

theorem isVP_nil (t : CTree α) : isVP t [] = true := by cases t <;> rfl

/-- A run of the tree from cursor position `pre.length` with stored frames
`rest` ahead of the cursor: the run replays the stored currents, continues
with 0 at fresh positions, rewrites every visited bound to the tree's, and
returns the leaf output — provided the stored currents do not overrun a
leaf. -/
theorem runTree_eq (t : CTree α) : ∀ (pre rest : List (Nat × Nat)) (s : Bool),
    fits t (curs rest) = true →
    runTree t (Gen.mk s (pre ++ rest) pre.length) =
      (Gen.mk s (pre ++ pathD t (curs rest))
          (pre.length + (pathD t (curs rest)).length),
        outD t (curs rest)) := by
  induction t with
  | leaf a =>
    intro pre rest s hfits
    cases rest with
    | nil => simp [runTree, pathD, outD, curs]
    | cons f rest2 => exact absurd hfits (by simp [fits, curs])
  | node b k ih =>
    intro pre rest s hfits
    cases rest with
    | nil =>
      rw [List.append_nil, runTree]
      rw [show curs [] = [] from rfl] at hfits ⊢
      rw [gen_push]
      show runTree (k 0) (Gen.mk s (pre ++ [(0, b)]) (pre.length + 1)) = _
      have h := ih 0 (pre ++ [(0, b)]) [] s (fits_nil _)
      rw [List.append_nil] at h
      rw [show curs [] = [] from rfl] at h
      rw [show (pre ++ [((0:Nat), b)]).length = pre.length + 1 by simp] at h
      rw [h]
      rw [show pathD (CTree.node b k) [] = (0, b) :: pathD (k 0) [] from rfl,
        show outD (CTree.node b k) [] = outD (k 0) [] from rfl]
      simp [List.append_assoc]; omega
    | cons f rest2 =>
      rw [show curs (f :: rest2) = f.1 :: curs rest2 from rfl] at hfits ⊢
      rw [fits] at hfits
      rw [runTree, gen_exist]
      show runTree (k f.1) (Gen.mk s (pre ++ (f.1, b) :: rest2) (pre.length + 1)) = _
      have h := ih f.1 (pre ++ [(f.1, b)]) rest2 s hfits
      rw [show (pre ++ [(f.1, b)]) ++ rest2 = pre ++ (f.1, b) :: rest2 by
        simp [List.append_assoc]] at h
      rw [show (pre ++ [(f.1, b)]).length = pre.length + 1 by
        simp [List.length_append]] at h
      rw [h]
      rw [show pathD (CTree.node b k) (f.1 :: curs rest2)
            = (f.1, b) :: pathD (k f.1) (curs rest2) from rfl,
        show outD (CTree.node b k) (f.1 :: curs rest2)
            = outD (k f.1) (curs rest2) from rfl]
      simp [List.append_assoc]; omega

theorem leaves_ne_nil (t : CTree α) : t.leaves ≠ [] := by
  induction t with
  | leaf a => simp [CTree.leaves]
  | node b k ih =>
    rw [CTree.leaves]
    have h0 : (0 : Nat) ∈ List.range (b+1) := List.mem_range.mpr (Nat.succ_pos b)
    obtain ⟨x, hx⟩ := List.exists_mem_of_ne_nil _ (ih 0)
    exact List.ne_nil_of_mem (List.mem_flatMap_of_mem h0 hx)


/-- Padding a valid prefix with first-child choices yields a valid complete
leaf path with the same frames and the same output. -/
theorem pad (t : CTree α) : ∀ cs, isVP t cs = true →
    isVLP t (curs (pathD t cs)) = true ∧
    pathD t (curs (pathD t cs)) = pathD t cs ∧
    outD t (curs (pathD t cs)) = outD t cs := by
  induction t with
  | leaf a => intro cs _; exact ⟨rfl, rfl, rfl⟩
  | node b k ih =>
    intro cs h
    cases cs with
    | nil =>
      obtain ⟨h1, h2, h3⟩ := ih 0 [] (isVP_nil _)
      have hcur : curs (pathD (CTree.node b k) []) =
          0 :: curs (pathD (k 0) []) := rfl
      refine ⟨?_, ?_, ?_⟩
      · rw [hcur, isVLP, Bool.and_eq_true, decide_eq_true_iff]
        exact ⟨Nat.zero_le b, h1⟩
      · rw [hcur]
        rw [show pathD (CTree.node b k) (0 :: curs (pathD (k 0) []))
              = (0, b) :: pathD (k 0) (curs (pathD (k 0) [])) from rfl, h2]
        rfl
      · rw [hcur]
        rw [show outD (CTree.node b k) (0 :: curs (pathD (k 0) []))
              = outD (k 0) (curs (pathD (k 0) [])) from rfl, h3]
        rfl
    | cons c cs2 =>
      rw [isVP, Bool.and_eq_true, decide_eq_true_iff] at h
      obtain ⟨h1, h2, h3⟩ := ih c cs2 h.2
      have hcur : curs (pathD (CTree.node b k) (c :: cs2)) =
          c :: curs (pathD (k c) cs2) := rfl
      refine ⟨?_, ?_, ?_⟩
      · rw [hcur, isVLP, Bool.and_eq_true, decide_eq_true_iff]
        exact ⟨h.1, h1⟩
      · rw [hcur]
        rw [show pathD (CTree.node b k) (c :: curs (pathD (k c) cs2))
              = (c, b) :: pathD (k c) (curs (pathD (k c) cs2)) from rfl, h2]
        rfl
      · rw [hcur]
        rw [show outD (CTree.node b k) (c :: curs (pathD (k c) cs2))
              = outD (k c) (curs (pathD (k c) cs2)) from rfl, h3]
        rfl

/-- The depth-first leaf list starts with the output of the all-zeros path,
followed by the leaves after that path. -/
theorem leaves_eq_first_cons (t : CTree α) :
    t.leaves = outD t [] :: leavesAfter t (curs (pathD t [])) := by
  induction t with
  | leaf a => rfl
  | node b k ih =>
    rw [CTree.leaves]
    rw [show List.range (b+1) = 0 :: List.range' 1 b by
      rw [List.range_eq_range', List.range'_succ, Nat.zero_add]]
    rw [List.flatMap_cons, ih 0]
    rw [show outD (CTree.node b k) [] = outD (k 0) [] from rfl]
    rw [show curs (pathD (CTree.node b k) [])
          = 0 :: curs (pathD (k 0) []) from rfl]
    rw [leavesAfter, Nat.sub_zero]
    rfl

/-- The odometer step on the frames of a valid leaf path: if `bump` is
exhausted there are no leaves after the path; otherwise the bumped frames'
currents form a valid prefix whose completed run produces exactly the next
depth-first leaf, with the remaining leaves following it. -/
theorem next_leaf (t : CTree α) : ∀ cs, isVLP t cs = true →
    (bump (pathD t cs) = none → leavesAfter t cs = []) ∧
    (∀ fs2, bump (pathD t cs) = some fs2 →
      isVP t (curs fs2) = true ∧
      leavesAfter t cs =
        outD t (curs fs2) :: leavesAfter t (curs (pathD t (curs fs2)))) := by
  induction t with
  | leaf a =>
    intro cs h
    cases cs with
    | nil =>
      refine ⟨fun _ => rfl, fun fs2 hb => ?_⟩
      exact absurd hb (by simp [pathD, bump])
    | cons c cs2 => exact absurd h (by simp [isVLP])
  | node b k ih =>
    intro cs h
    cases cs with
    | nil => exact absurd h (by simp [isVLP])
    | cons c cs2 =>
      rw [isVLP, Bool.and_eq_true, decide_eq_true_iff] at h
      obtain ⟨hcb, hv⟩ := h
      have hpath : pathD (CTree.node b k) (c :: cs2)
          = (c, b) :: pathD (k c) cs2 := rfl
      obtain ⟨ihn, ihs⟩ := ih c cs2 hv
      constructor
      · intro hb
        rw [hpath, bump_cons] at hb
        cases hbc : bump (pathD (k c) cs2) with
        | some fs0 =>
          rw [hbc] at hb
          exact absurd hb (by simp)
        | none =>
          rw [hbc] at hb
          have hb2 : (if c < b then some [(c + 1, b)] else none)
              = (none : Option (List (Nat × Nat))) := hb
          by_cases hlt : c < b
          · rw [if_pos hlt] at hb2; cases hb2
          · have heq : b - c = 0 := Nat.sub_eq_zero_of_le (Nat.not_lt.mp hlt)
            rw [leavesAfter, ihn hbc, heq]
            rfl
      · intro fs2 hb
        rw [hpath, bump_cons] at hb
        cases hbc : bump (pathD (k c) cs2) with
        | some fs0 =>
          rw [hbc] at hb
          have hb2 : some ((c, b) :: fs0) = some fs2 := hb
          injection hb2 with hb3
          subst hb3
          obtain ⟨hvp0, heq0⟩ := ihs fs0 hbc
          have hc2 : curs ((c, b) :: fs0) = c :: curs fs0 := rfl
          constructor
          · rw [hc2, isVP, Bool.and_eq_true, decide_eq_true_iff]
            exact ⟨hcb, hvp0⟩
          · rw [hc2]
            rw [show pathD (CTree.node b k) (c :: curs fs0)
                  = (c, b) :: pathD (k c) (curs fs0) from rfl]
            rw [show curs ((c, b) :: pathD (k c) (curs fs0))
                  = c :: curs (pathD (k c) (curs fs0)) from rfl]
            rw [show outD (CTree.node b k) (c :: curs fs0)
                  = outD (k c) (curs fs0) from rfl]
            rw [leavesAfter, leavesAfter, heq0]
            rfl
        | none =>
          rw [hbc] at hb
          have hb2 : (if c < b then some [(c + 1, b)] else none) = some fs2 := hb
          by_cases hlt : c < b
          · rw [if_pos hlt] at hb2
            injection hb2 with hb3
            subst hb3
            have hc2 : curs [(c + 1, b)] = [c + 1] := rfl
            constructor
            · rw [hc2, isVP, Bool.and_eq_true, decide_eq_true_iff]
              exact ⟨hlt, isVP_nil _⟩
            · rw [hc2]
              rw [show pathD (CTree.node b k) [c + 1]
                    = (c + 1, b) :: pathD (k (c + 1)) [] from rfl]
              rw [show curs ((c + 1, b) :: pathD (k (c + 1)) [])
                    = (c + 1) :: curs (pathD (k (c + 1)) []) from rfl]
              rw [show outD (CTree.node b k) [c + 1]
                    = outD (k (c + 1)) [] from rfl]
              rw [leavesAfter, ihn hbc, List.nil_append]
              rw [show b - c = (b - (c + 1)) + 1 by omega]
              rw [List.range'_succ, List.flatMap_cons]
              rw [leaves_eq_first_cons (k (c + 1))]
              rw [leavesAfter]
              rw [show c + 1 + 1 = c + 2 from rfl]
              rfl
          · rw [if_neg hlt] at hb2; cases hb2

/-- The enumeration loop from the state recorded after a completed run
(frames of a valid leaf path `cs`): with enough fuel it emits exactly the
depth-first leaves after `cs`.  `hb` says one run of the body behaves like
one run of the tree from any cursor-reset state whose currents form a valid
prefix. -/
theorem driveO_eq (t : CTree α) (body : Gen → Option (Gen × α))
    (hb : ∀ (s : Bool) (fs : List (Nat × Nat)), isVP t (curs fs) = true →
      body (Gen.mk s fs 0) =
        some (Gen.mk s (pathD t (curs fs)) (pathD t (curs fs)).length,
          outD t (curs fs))) :
    ∀ (fuel : Nat) (cs : List Nat), isVLP t cs = true →
      (leavesAfter t cs).length ≤ fuel → ∀ (p0 : Nat),
      driveO body fuel (Gen.mk true (pathD t cs) p0) = some (leavesAfter t cs) := by
  intro fuel
  induction fuel with
  | zero =>
    intro cs _ hlen p0
    have h0 : leavesAfter t cs = [] :=
      List.length_eq_zero.mp (Nat.le_zero.mp hlen)
    rw [driveO, h0]
  | succ fuel ihf =>
    intro cs hcs hlen p0
    rw [driveO]
    have hd := Gen.done_started (Gen.mk true (pathD t cs) p0) rfl
    cases hbp : bump (pathD t cs) with
    | none =>
      rw [hbp] at hd
      rw [hd, (next_leaf t cs hcs).1 hbp]
    | some fs2 =>
      have hd2 : (Gen.mk true (pathD t cs) p0).done = (Gen.mk true fs2 0, false) := by
        rw [hd, hbp]
      rw [hd2]
      obtain ⟨hvp2, hle⟩ := (next_leaf t cs hcs).2 fs2 hbp
      show (match body (Gen.mk true fs2 0) with
            | none => none
            | some (g2, out) =>
              match driveO body fuel g2 with
              | none => none
              | some outs => some (out :: outs)) = some (leavesAfter t cs)
      rw [hb true fs2 hvp2]
      show (match driveO body fuel
              (Gen.mk true (pathD t (curs fs2)) (pathD t (curs fs2)).length) with
            | none => none
            | some outs => some (outD t (curs fs2) :: outs)) = some (leavesAfter t cs)
      obtain ⟨hvlp2, hpath2, _⟩ := pad t (curs fs2) hvp2
      have hlen2 : (leavesAfter t (curs (pathD t (curs fs2)))).length ≤ fuel := by
        rw [hle] at hlen
        simpa using hlen
      have hdrive := ihf (curs (pathD t (curs fs2))) hvlp2 hlen2
        (pathD t (curs fs2)).length
      rw [hpath2] at hdrive
      rw [hdrive, hle]

/-- The full enumeration: `while !done() { body }` on a fresh enumerator,
with enough fuel, emits exactly the depth-first leaves of the tree. -/
theorem driveO_new (t : CTree α) (body : Gen → Option (Gen × α))
    (hb : ∀ (s : Bool) (fs : List (Nat × Nat)), isVP t (curs fs) = true →
      body (Gen.mk s fs 0) =
        some (Gen.mk s (pathD t (curs fs)) (pathD t (curs fs)).length,
          outD t (curs fs)))
    (fuel : Nat) (hfuel : t.leaves.length ≤ fuel) :
    driveO body fuel Gen.new = some t.leaves := by
  cases fuel with
  | zero =>
    have : t.leaves = [] := List.length_eq_zero.mp (Nat.le_zero.mp hfuel)
    exact absurd this (leaves_ne_nil t)
  | succ fuel =>
    rw [driveO]
    have hdn : Gen.new.done = (Gen.mk true [] 0, false) := rfl
    rw [hdn]
    have hbody : body (Gen.mk true [] 0) =
        some (Gen.mk true (pathD t (curs [])) (pathD t (curs [])).length,
          outD t (curs [])) := hb true [] (isVP_nil t)
    rw [show curs ([] : List (Nat × Nat)) = [] from rfl] at hbody
    show (match body (Gen.mk true [] 0) with
          | none => none
          | some (g2, out) =>
            match driveO body fuel g2 with
            | none => none
            | some outs => some (out :: outs)) = some t.leaves
    rw [hbody]
    show (match driveO body fuel
            (Gen.mk true (pathD t []) (pathD t []).length) with
          | none => none
          | some outs => some (outD t [] :: outs)) = some t.leaves
    obtain ⟨h1, h2, _⟩ := pad t [] (isVP_nil t)
    have hlen2 : (leavesAfter t (curs (pathD t []))).length ≤ fuel := by
      rw [leaves_eq_first_cons t] at hfuel
      simpa using hfuel
    have hdrive := driveO_eq t body hb fuel (curs (pathD t [])) h1 hlen2
      (pathD t []).length
    rw [h2] at hdrive
    rw [hdrive]
    rw [leaves_eq_first_cons t]

/-! ### The `gen_elts` tree (claims C3 and C4) -/

/-- The tree of `gen_fixed_by(n, |g| g.gen(elt_bound))`: a chain of `n`
element choices, the leaf collecting the chosen elements in order. -/
def eltsChild (elt_bound : Nat) : Nat → CTree (List Nat)
  | 0 => .leaf []
  | n+1 => .node elt_bound (fun x => (eltsChild elt_bound n).mapL (x :: ·))

/-- The tree of `gen_elts(len_bound, elt_bound)`: first the length choice,
then that many element choices. -/
def eltsTree (len_bound elt_bound : Nat) : CTree (List Nat) :=
  .node len_bound (eltsChild elt_bound)

theorem gen_fixed_by_elts (E : Nat) : ∀ (n : Nat) (g : Gen),
    Gen.gen_fixed_by g n (fun g => g.gen E) = runTree (eltsChild E n) g := by
  intro n
  induction n with
  | zero => intro g; rfl
  | succ n ih =>
    intro g
    rw [show eltsChild E (n+1)
        = CTree.node E (fun x => (eltsChild E n).mapL (x :: ·)) from rfl]
    rw [Gen.gen_fixed_by, runTree]
    cases hg : g.gen E with
    | mk g1 x =>
      show (match Gen.gen_fixed_by g1 n (fun g => g.gen E) with
            | (g2, xs) => (g2, x :: xs))
          = runTree ((eltsChild E n).mapL (x :: ·)) g1
      rw [ih g1, runTree_mapL]

theorem gen_elts_eq (L E : Nat) (g : Gen) :
    g.gen_elts L E = runTree (eltsTree L E) g := by
  rw [Gen.gen_elts, Gen.gen_bound_by, eltsTree, runTree]
  cases hg : g.gen L with
  | mk g1 n => exact gen_fixed_by_elts E n g1

/-- All integer sequences of length `n` with entries in `[0, E]`, ordered by
first entry. -/
def allSeqs (E : Nat) : Nat → List (List Nat)
  | 0 => [[]]
  | n+1 => (List.range (E+1)).flatMap (fun x => (allSeqs E n).map (x :: ·))

theorem eltsChild_leaves (E n : Nat) :
    (eltsChild E n).leaves = allSeqs E n := by
  induction n with
  | zero => rfl
  | succ n ih =>
    rw [show eltsChild E (n+1)
        = CTree.node E (fun x => (eltsChild E n).mapL (x :: ·)) from rfl]
    rw [CTree.leaves, allSeqs]
    exact List.flatMap_congr (fun x _ => by rw [leaves_mapL, ih])

theorem eltsTree_leaves (L E : Nat) :
    (eltsTree L E).leaves = (List.range (L+1)).flatMap (allSeqs E) := by
  rw [eltsTree, CTree.leaves]
  exact List.flatMap_congr (fun n _ => eltsChild_leaves E n)

theorem length_flatMap_const {l : List α} {f : α → List β} {c : Nat}
    (h : ∀ x ∈ l, (f x).length = c) : (l.flatMap f).length = l.length * c := by
  induction l with
  | nil => simp
  | cons x xs ih =>
    rw [List.flatMap_cons, List.length_append, h x (List.mem_cons_self _ _),
      ih (fun y hy => h y (List.mem_cons_of_mem _ hy)), List.length_cons]
    ring

theorem length_allSeqs (E n : Nat) : (allSeqs E n).length = (E+1)^n := by
  induction n with
  | zero => rfl
  | succ n ih =>
    rw [allSeqs, length_flatMap_const (fun x _ => by rw [List.length_map, ih]),
      List.length_range, pow_succ]
    ring

theorem length_flatMap_range (m : Nat) (f : Nat → List β) :
    ((List.range m).flatMap f).length = ∑ k in Finset.range m, (f k).length := by
  induction m with
  | zero => simp
  | succ m ih =>
    rw [List.range_succ, List.flatMap_append, List.length_append, ih,
      Finset.sum_range_succ]
    simp

theorem eltsTree_leaves_length (L E : Nat) :
    (eltsTree L E).leaves.length = ∑ k in Finset.range (L+1), (E+1)^k := by
  rw [eltsTree_leaves, length_flatMap_range]
  exact Finset.sum_congr rfl (fun k _ => length_allSeqs E k)

theorem mem_allSeqs (E : Nat) : ∀ (n : Nat) (xs : List Nat),
    xs ∈ allSeqs E n ↔ (xs.length = n ∧ ∀ e ∈ xs, e ≤ E) := by
  intro n
  induction n with
  | zero =>
    intro xs
    simp only [allSeqs, List.mem_singleton, List.length_eq_zero]
    constructor
    · rintro rfl; exact ⟨rfl, by intro e he; cases he⟩
    · rintro ⟨rfl, _⟩; rfl
  | succ n ih =>
    intro xs
    rw [allSeqs]
    simp only [List.mem_flatMap, List.mem_range, List.mem_map]
    constructor
    · rintro ⟨x, hx, ys, hys, rfl⟩
      obtain ⟨hlen, helts⟩ := (ih ys).mp hys
      refine ⟨by simp [hlen], ?_⟩
      intro e he
      rcases List.mem_cons.mp he with rfl | he
      · omega
      · exact helts e he
    · rintro ⟨hlen, helts⟩
      cases xs with
      | nil => cases hlen
      | cons x ys =>
        refine ⟨x, ?_, ys, (ih ys).mpr ⟨by simpa using hlen, ?_⟩, rfl⟩
        · have := helts x (List.mem_cons_self _ _)
          omega
        · exact fun e he => helts e (List.mem_cons_of_mem _ he)

theorem nodup_allSeqs (E : Nat) : ∀ n, (allSeqs E n).Nodup := by
  intro n
  induction n with
  | zero => simp [allSeqs]
  | succ n ih =>
    rw [allSeqs]
    rw [List.nodup_flatMap]
    refine ⟨fun x _ => ih.map (fun a b h => by injection h), ?_⟩
    refine (List.nodup_range _).imp ?_
    intro a b hne
    intro zs hza hzb
    rcases List.mem_map.mp hza with ⟨ys, _, rfl⟩
    rcases List.mem_map.mp hzb with ⟨ys2, _, heq⟩
    exact hne (by injection heq with h1 _; exact h1.symm)

theorem nodup_eltsTree_leaves (L E : Nat) : (eltsTree L E).leaves.Nodup := by
  rw [eltsTree_leaves, List.nodup_flatMap]
  refine ⟨fun n _ => nodup_allSeqs E n, ?_⟩
  refine (List.nodup_range _).imp ?_
  intro a b hne
  intro zs hza hzb
  have h1 := ((mem_allSeqs E a zs).mp hza).1
  have h2 := ((mem_allSeqs E b zs).mp hzb).1
  exact hne (h1 ▸ h2 ▸ rfl)

theorem mem_eltsTree_leaves (L E : Nat) (xs : List Nat) :
    xs ∈ (eltsTree L E).leaves ↔ (xs.length ≤ L ∧ ∀ e ∈ xs, e ≤ E) := by
  rw [eltsTree_leaves]
  simp only [List.mem_flatMap, List.mem_range]
  constructor
  · rintro ⟨n, hn, hxs⟩
    obtain ⟨hlen, helts⟩ := (mem_allSeqs E n xs).mp hxs
    exact ⟨by omega, helts⟩
  · rintro ⟨hlen, helts⟩
    exact ⟨xs.length, by omega, (mem_allSeqs E xs.length xs).mpr ⟨rfl, helts⟩⟩

/-- Packaging of `runTree_eq` for a total body. -/
theorem body_of_runTree (t : CTree α) (f : Gen → Gen × α)
    (hf : ∀ g, f g = runTree t g) :
    ∀ (s : Bool) (fs : List (Nat × Nat)), isVP t (curs fs) = true →
      (fun g => some (f g)) (Gen.mk s fs 0) =
        some (Gen.mk s (pathD t (curs fs)) (pathD t (curs fs)).length,
          outD t (curs fs)) := by
  intro s fs hvp
  have h := runTree_eq t [] fs s (fits_of_isVP t _ hvp)
  simp only [List.nil_append, List.length_nil, Nat.zero_add] at h
  show some (f (Gen.mk s fs 0)) = _
  rw [hf, h]

/-- C3: driving `gen_elts(L, E)` with a `while !done()` loop on a fresh
enumerator (any fuel at least the size of the space) produces, with no
duplicates, exactly the sequences of length at most `L` whose entries all lie
in `[0, E]`. -/
theorem claim_c3 (L E fuel : Nat)
    (hfuel : ∑ k in Finset.range (L+1), (E+1)^k ≤ fuel) :
    ∃ out, driveO (fun g => some (Gen.gen_elts g L E)) fuel Gen.new = some out ∧
      out.Nodup ∧ ∀ xs, xs ∈ out ↔ (xs.length ≤ L ∧ ∀ e ∈ xs, e ≤ E) := by
  refine ⟨(eltsTree L E).leaves, ?_, nodup_eltsTree_leaves L E,
    mem_eltsTree_leaves L E⟩
  exact driveO_new (eltsTree L E) _
    (body_of_runTree _ _ (gen_elts_eq L E)) fuel
    (by rw [eltsTree_leaves_length]; exact hfuel)

theorem claim_c3_witness :
    (∑ k in Finset.range 3, 3^k ≤ 13) ∧
      (∃ out, driveO (fun g => some (Gen.gen_elts g 2 2)) 13 Gen.new = some out ∧
        out.Nodup ∧ ∀ xs, xs ∈ out ↔ (xs.length ≤ 2 ∧ ∀ e ∈ xs, e ≤ 2)) :=
  ⟨by decide, claim_c3 2 2 13 (by decide)⟩

/-- C4: driving `gen_elts(L, E)` with a `while !done()` loop on a fresh
enumerator performs exactly `Σ_{k=0..L} (E+1)^k` runs: any fuel at least that
size produces exactly that many runs (so the loop stops there). -/
theorem claim_c4 (L E fuel : Nat)
    (hfuel : ∑ k in Finset.range (L+1), (E+1)^k ≤ fuel) :
    ∃ out, driveO (fun g => some (Gen.gen_elts g L E)) fuel Gen.new = some out ∧
      out.length = ∑ k in Finset.range (L+1), (E+1)^k := by
  refine ⟨(eltsTree L E).leaves, ?_, eltsTree_leaves_length L E⟩
  exact driveO_new (eltsTree L E) _
    (body_of_runTree _ _ (gen_elts_eq L E)) fuel
    (by rw [eltsTree_leaves_length]; exact hfuel)

theorem claim_c4_witness :
    (∑ k in Finset.range 4, 5^k ≤ 156) ∧ (∑ k in Finset.range 4, 5^k = 156) ∧
      (∃ out, driveO (fun g => some (Gen.gen_elts g 3 4)) 156 Gen.new = some out ∧
        out.length = ∑ k in Finset.range 4, 5^k) :=
  ⟨by decide, by decide, claim_c4 3 4 156 (by decide)⟩

/-! ### The `gen_subset` tree (claim C6) -/

/-- The tree of `gen_subset`: one binary choice (`flip` = `gen 1`) per input
element, in order; child `1` includes the element (any other stored current
excludes it, exactly as `flip` compares `== 1`). -/
def subsetTree : List α → CTree (List α)
  | [] => .leaf []
  | x :: rest =>
    .node 1 (fun v => (subsetTree rest).mapL (fun xs => if v == 1 then x :: xs else xs))

theorem gen_subset_eq (input : List α) : ∀ g,
    Gen.gen_subset g input = runTree (subsetTree input) g := by
  induction input with
  | nil => intro g; rfl
  | cons x rest ih =>
    intro g
    rw [show subsetTree (x :: rest) = CTree.node 1
        (fun v => (subsetTree rest).mapL (fun xs => if v == 1 then x :: xs else xs))
      from rfl]
    rw [Gen.gen_subset, Gen.flip, runTree]
    cases hg : g.gen 1 with
    | mk g1 v =>
      show (match Gen.gen_subset g1 rest with
            | (g2, xs) => (g2, if v == 1 then x :: xs else xs))
          = runTree ((subsetTree rest).mapL
              (fun xs => if v == 1 then x :: xs else xs)) g1
      rw [ih g1, runTree_mapL]

/-- All inclusion patterns over `n` elements, in the order the enumeration
visits them (all-exclude first). -/
def allMasks : Nat → List (List Bool)
  | 0 => [[]]
  | n+1 => ((allMasks n).map (false :: ·)) ++ ((allMasks n).map (true :: ·))

/-- The subsequence of `input` selected by an inclusion pattern. -/
def maskApply : List α → List Bool → List α
  | [], _ => []
  | _ :: _, [] => []
  | x :: xs, b :: bs => if b then x :: maskApply xs bs else maskApply xs bs

theorem subsetTree_leaves (input : List α) :
    (subsetTree input).leaves = (allMasks input.length).map (maskApply input) := by
  induction input with
  | nil => rfl
  | cons x rest ih =>
    rw [show subsetTree (x :: rest) = CTree.node 1
        (fun v => (subsetTree rest).mapL (fun xs => if v == 1 then x :: xs else xs))
      from rfl]
    rw [CTree.leaves]
    rw [show List.range 2 = [0, 1] from rfl]
    rw [List.flatMap_cons, List.flatMap_cons, List.flatMap_nil, List.append_nil]
    rw [leaves_mapL, leaves_mapL, ih]
    rw [show (x :: rest).length = rest.length + 1 from rfl]
    rw [show allMasks (rest.length + 1)
        = ((allMasks rest.length).map (false :: ·))
          ++ ((allMasks rest.length).map (true :: ·)) from rfl]
    rw [List.map_append, List.map_map, List.map_map, List.map_map, List.map_map]
    rfl

theorem length_allMasks (n : Nat) : (allMasks n).length = 2 ^ n := by
  induction n with
  | zero => rfl
  | succ n ih =>
    rw [allMasks, List.length_append, List.length_map, List.length_map, ih,
      pow_succ]
    omega

theorem mem_allMasks : ∀ (n : Nat) (bs : List Bool),
    bs ∈ allMasks n ↔ bs.length = n := by
  intro n
  induction n with
  | zero =>
    intro bs
    simp [allMasks, List.length_eq_zero]
  | succ n ih =>
    intro bs
    rw [allMasks]
    simp only [List.mem_append, List.mem_map]
    cases bs with
    | nil =>
      simp only [List.length_nil]
      constructor
      · rintro (⟨a, _, h⟩ | ⟨a, _, h⟩) <;> cases h
      · omega
    | cons b bs2 =>
      rw [List.length_cons]
      cases b with
      | false =>
        constructor
        · rintro (⟨a, ha, h⟩ | ⟨a, _, h⟩)
          · injection h with _ h2; subst h2; rw [(ih a).mp ha]
          · cases h
        · intro h
          exact Or.inl ⟨bs2, (ih bs2).mpr (by omega), rfl⟩
      | true =>
        constructor
        · rintro (⟨a, _, h⟩ | ⟨a, ha, h⟩)
          · cases h
          · injection h with _ h2; subst h2; rw [(ih a).mp ha]
        · intro h
          exact Or.inr ⟨bs2, (ih bs2).mpr (by omega), rfl⟩

theorem nodup_allMasks (n : Nat) : (allMasks n).Nodup := by
  induction n with
  | zero => simp [allMasks]
  | succ n ih =>
    rw [allMasks]
    refine List.Nodup.append (ih.map ?_) (ih.map ?_) ?_
    · intro a b h; injection h
    · intro a b h; injection h
    · intro bs h1 h2
      rcases List.mem_map.mp h1 with ⟨a, _, rfl⟩
      rcases List.mem_map.mp h2 with ⟨a2, _, h⟩
      injection h with hb _
      cases hb

/-- C6: driving `gen_subset` with a `while !done()` loop on a fresh
enumerator performs exactly `2^n` runs, the runs realize the inclusion
patterns `allMasks n` in order, and those patterns enumerate every
length-`n` boolean pattern (including all-false and all-true) exactly once. -/
theorem claim_c6 (α : Type) (input : List α) (fuel : Nat)
    (hfuel : 2 ^ input.length ≤ fuel) :
    ∃ out, driveO (fun g => some (Gen.gen_subset g input)) fuel Gen.new = some out ∧
      out = (allMasks input.length).map (maskApply input) ∧
      out.length = 2 ^ input.length ∧
      (allMasks input.length).Nodup ∧
      ∀ bs : List Bool, bs ∈ allMasks input.length ↔ bs.length = input.length := by
  refine ⟨(subsetTree input).leaves, ?_, ?_, ?_, nodup_allMasks _, mem_allMasks _⟩
  · exact driveO_new (subsetTree input) _
      (body_of_runTree _ _ (gen_subset_eq input)) fuel
      (by rw [subsetTree_leaves, List.length_map, length_allMasks]; exact hfuel)
  · exact subsetTree_leaves input
  · rw [subsetTree_leaves, List.length_map, length_allMasks]

theorem claim_c6_witness :
    (2 ^ 5 ≤ 32) ∧
      (∃ out, driveO (fun g => some (Gen.gen_subset g [10, 20, 30, 40, 50])) 32
          Gen.new = some out ∧
        out = (allMasks 5).map (maskApply [10, 20, 30, 40, 50]) ∧
        out.length = 2 ^ 5 ∧
        (allMasks 5).Nodup ∧
        ∀ bs : List Bool, bs ∈ allMasks 5 ↔ bs.length = 5) :=
  ⟨by decide, claim_c6 Nat [10, 20, 30, 40, 50] 32 (by decide)⟩

/-! ### The `gen_perm` tree (claim C5) -/

/-- The tree of the `gen_perm` loop with `n` steps left and remaining index
positions `idxs`: pick position `j` of `idxs` via `gen(idxs.len() - 1)`,
emit `input[idxs[j]]`, and continue with `idxs` minus that position. -/
def permTreeAux [Inhabited α] (input : List α) : Nat → List Nat → CTree (List α)
  | 0, _ => .leaf []
  | n+1, idxs =>
    .node (idxs.length - 1) (fun j =>
      (permTreeAux input n (idxs.eraseIdx j)).mapL
        (input.getD (idxs.getD j 0) default :: ·))

def permTree [Inhabited α] (input : List α) : CTree (List α) :=
  permTreeAux input input.length (List.range input.length)

theorem isVP_mapL (f : α → β) (t : CTree α) : ∀ cs,
    isVP (t.mapL f) cs = isVP t cs := by
  induction t with
  | leaf a => intro cs; cases cs <;> rfl
  | node b k ih =>
    intro cs
    cases cs with
    | nil => rfl
    | cons c cs2 =>
      rw [CTree.mapL, isVP, isVP, ih c cs2]

theorem getD_mem {l : List α} {n : Nat} (h : n < l.length) (d : α) :
    l.getD n d ∈ l := by
  rw [List.getD_eq_getElem l d h]
  exact List.getElem_mem h

/-- On any state whose stored currents form a valid prefix of the tree, the
`gen_perm` loop body succeeds and computes exactly the tree run (all its
index arithmetic stays in range). -/
theorem permStep_eq [Inhabited α] (input : List α) : ∀ (n : Nat) (idxs : List Nat)
    (pre rest : List (Nat × Nat)) (s : Bool),
    idxs.length = n → (∀ i ∈ idxs, i < input.length) →
    isVP (permTreeAux input n idxs) (curs rest) = true →
    permStep input n idxs (Gen.mk s (pre ++ rest) pre.length) =
      some (runTree (permTreeAux input n idxs) (Gen.mk s (pre ++ rest) pre.length)) := by
  intro n
  induction n with
  | zero => intro idxs pre rest s hlen hwf hvp; rfl
  | succ n ih =>
    intro idxs pre rest s hlen hwf hvp
    have hne : ¬ idxs.length = 0 := by omega
    rw [show permTreeAux input (n+1) idxs
        = CTree.node (idxs.length - 1) (fun j =>
            (permTreeAux input n (idxs.eraseIdx j)).mapL
              (input.getD (idxs.getD j 0) default :: ·)) from rfl] at hvp ⊢
    rw [permStep, if_neg hne, runTree]
    cases rest with
    | nil =>
      rw [List.append_nil]
      rw [gen_push]
      show (if (0:Nat) < idxs.length then
              if idxs.getD 0 0 < input.length then
                match permStep input n (idxs.eraseIdx 0)
                    (Gen.mk s (pre ++ [(0, idxs.length - 1)]) (pre.length + 1)) with
                | none => none
                | some (g2, xs) =>
                  some (g2, input.getD (idxs.getD 0 0) default :: xs)
              else none
            else none)
          = some (runTree ((permTreeAux input n (idxs.eraseIdx 0)).mapL
              (input.getD (idxs.getD 0 0) default :: ·))
              (Gen.mk s (pre ++ [(0, idxs.length - 1)]) (pre.length + 1)))
      rw [if_pos (show (0:Nat) < idxs.length by omega)]
      rw [if_pos (hwf _ (getD_mem (show (0:Nat) < idxs.length by omega) 0))]
      have hrec := ih (idxs.eraseIdx 0) (pre ++ [(0, idxs.length - 1)]) [] s
        (by rw [List.length_eraseIdx_of_lt (by omega)]; omega)
        (fun i hi => hwf i (List.eraseIdx_subset _ _ hi))
        (isVP_nil _)
      rw [List.append_nil] at hrec
      rw [show (pre ++ [((0:Nat), idxs.length - 1)]).length = pre.length + 1 by
        simp] at hrec
      rw [hrec, runTree_mapL]
    | cons fr rest2 =>
      rw [show curs (fr :: rest2) = fr.1 :: curs rest2 from rfl] at hvp
      rw [isVP, Bool.and_eq_true, decide_eq_true_iff] at hvp
      obtain ⟨hfle, hvp2⟩ := hvp
      rw [isVP_mapL] at hvp2
      have hjlt : fr.1 < idxs.length := by omega
      rw [gen_exist]
      show (if fr.1 < idxs.length then
              if idxs.getD fr.1 0 < input.length then
                match permStep input n (idxs.eraseIdx fr.1)
                    (Gen.mk s (pre ++ (fr.1, idxs.length - 1) :: rest2)
                      (pre.length + 1)) with
                | none => none
                | some (g2, xs) =>
                  some (g2, input.getD (idxs.getD fr.1 0) default :: xs)
              else none
            else none)
          = some (runTree ((permTreeAux input n (idxs.eraseIdx fr.1)).mapL
              (input.getD (idxs.getD fr.1 0) default :: ·))
              (Gen.mk s (pre ++ (fr.1, idxs.length - 1) :: rest2) (pre.length + 1)))
      rw [if_pos hjlt, if_pos (hwf _ (getD_mem hjlt 0))]
      have hrec := ih (idxs.eraseIdx fr.1) (pre ++ [(fr.1, idxs.length - 1)]) rest2 s
        (by rw [List.length_eraseIdx_of_lt hjlt]; omega)
        (fun i hi => hwf i (List.eraseIdx_subset _ _ hi))
        hvp2
      rw [show (pre ++ [(fr.1, idxs.length - 1)]) ++ rest2
            = pre ++ (fr.1, idxs.length - 1) :: rest2 by simp] at hrec
      rw [show (pre ++ [(fr.1, idxs.length - 1)]).length = pre.length + 1 by
        simp] at hrec
      rw [hrec, runTree_mapL]

theorem perm_cons_eraseIdx : ∀ (l : List Nat) (j : Nat), j < l.length →
    l.Perm (l.getD j 0 :: l.eraseIdx j) := by
  intro l
  induction l with
  | nil => intro j h; simp at h
  | cons x xs ih =>
    intro j hj
    cases j with
    | zero => exact List.Perm.refl _
    | succ j =>
      have h1 := ih j (by simpa using hj)
      exact (h1.cons x).trans
        (List.Perm.swap (xs.getD j 0) x (xs.eraseIdx j))

theorem perm_leaves_mem [Inhabited α] (input : List α) : ∀ (n : Nat) (idxs : List Nat),
    idxs.length = n →
    ∀ xs ∈ (permTreeAux input n idxs).leaves,
      xs.Perm (idxs.map (fun i => input.getD i default)) := by
  intro n
  induction n with
  | zero =>
    intro idxs hlen xs hxs
    obtain rfl : idxs = [] := List.length_eq_zero.mp hlen
    rcases List.mem_singleton.mp hxs with rfl
    exact List.Perm.refl _
  | succ n ih =>
    intro idxs hlen xs hxs
    rw [show permTreeAux input (n+1) idxs
        = CTree.node (idxs.length - 1) (fun j =>
            (permTreeAux input n (idxs.eraseIdx j)).mapL
              (input.getD (idxs.getD j 0) default :: ·)) from rfl,
      CTree.leaves] at hxs
    rcases List.mem_flatMap.mp hxs with ⟨j, hj, hxs2⟩
    rw [leaves_mapL] at hxs2
    rcases List.mem_map.mp hxs2 with ⟨ys, hys, rfl⟩
    have hjlt : j < idxs.length := by
      have := List.mem_range.mp hj
      omega
    have hperm := ih (idxs.eraseIdx j)
      (by rw [List.length_eraseIdx_of_lt hjlt]; omega) ys hys
    have h2 := (perm_cons_eraseIdx idxs j hjlt).map
      (fun i => input.getD i default)
    rw [List.map_cons] at h2
    exact (hperm.cons _).trans h2.symm

theorem perm_leaves_length [Inhabited α] (input : List α) : ∀ (n : Nat)
    (idxs : List Nat), idxs.length = n →
    (permTreeAux input n idxs).leaves.length = n.factorial := by
  intro n
  induction n with
  | zero => intro idxs hlen; rfl
  | succ n ih =>
    intro idxs hlen
    rw [show permTreeAux input (n+1) idxs
        = CTree.node (idxs.length - 1) (fun j =>
            (permTreeAux input n (idxs.eraseIdx j)).mapL
              (input.getD (idxs.getD j 0) default :: ·)) from rfl,
      CTree.leaves]
    have hc : ∀ j ∈ List.range (idxs.length - 1 + 1),
        ((permTreeAux input n (idxs.eraseIdx j)).mapL
          (input.getD (idxs.getD j 0) default :: ·)).leaves.length = n.factorial := by
      intro j hj
      have hjlt : j < idxs.length := by
        have := List.mem_range.mp hj
        omega
      rw [leaves_mapL, List.length_map]
      exact ih (idxs.eraseIdx j) (by rw [List.length_eraseIdx_of_lt hjlt]; omega)
    rw [length_flatMap_const hc, List.length_range,
      show idxs.length - 1 + 1 = n + 1 by omega, Nat.factorial_succ]

theorem perm_leaves_nodup [Inhabited α] (input : List α) (hinput : input.Nodup) :
    ∀ (n : Nat) (idxs : List Nat), idxs.length = n → idxs.Nodup →
    (∀ i ∈ idxs, i < input.length) →
    (permTreeAux input n idxs).leaves.Nodup := by
  intro n
  induction n with
  | zero => intro idxs _ _ _; simp [permTreeAux, CTree.leaves]
  | succ n ih =>
    intro idxs hlen hnd hwf
    rw [show permTreeAux input (n+1) idxs
        = CTree.node (idxs.length - 1) (fun j =>
            (permTreeAux input n (idxs.eraseIdx j)).mapL
              (input.getD (idxs.getD j 0) default :: ·)) from rfl,
      CTree.leaves]
    rw [List.nodup_flatMap]
    constructor
    · intro j hj
      have hjlt : j < idxs.length := by
        have := List.mem_range.mp hj
        omega
      rw [leaves_mapL]
      refine List.Nodup.map ?_ (ih (idxs.eraseIdx j) ?_ ?_ ?_)
      · intro a b h; injection h
      · rw [List.length_eraseIdx_of_lt hjlt]; omega
      · exact (List.eraseIdx_sublist idxs j).nodup hnd
      · exact fun i hi => hwf i (List.eraseIdx_subset _ _ hi)
    · refine List.Pairwise.imp_of_mem ?_ (List.nodup_range _)
      intro a b ha hb hne
      have halt : a < idxs.length := by
        have := List.mem_range.mp ha
        omega
      have hblt : b < idxs.length := by
        have := List.mem_range.mp hb
        omega
      intro xs hxa hxb
      simp only [leaves_mapL, List.mem_map] at hxa hxb
      rcases hxa with ⟨ys, _, rfl⟩
      rcases hxb with ⟨zs, _, heq⟩
      injection heq with h1 _
      have hia : idxs.getD a 0 < input.length := hwf _ (getD_mem halt 0)
      have hib : idxs.getD b 0 < input.length := hwf _ (getD_mem hblt 0)
      rw [List.getD_eq_getElem input default hib,
        List.getD_eq_getElem input default hia] at h1
      have h2 : idxs.getD b 0 = idxs.getD a 0 :=
        (List.Nodup.getElem_inj_iff hinput).mp h1
      rw [List.getD_eq_getElem idxs 0 hblt, List.getD_eq_getElem idxs 0 halt] at h2
      exact hne ((List.Nodup.getElem_inj_iff hnd).mp h2.symm)

theorem map_getD_range (l : List α) (d : α) :
    (List.range l.length).map (fun i => l.getD i d) = l := by
  induction l with
  | nil => rfl
  | cons x xs ih =>
    rw [show (x :: xs).length = xs.length + 1 from rfl, List.range_succ_eq_map,
      List.map_cons, List.map_map]
    congr 1

/-- C5: driving `gen_perm` over `n` distinct elements with a `while !done()`
loop on a fresh enumerator performs exactly `n!` runs; every run's sequence
is a permutation of the input, and across all runs each of the `n!` orderings
appears exactly once. -/
theorem claim_c5 (α : Type) [Inhabited α] (input : List α)
    (hinput : input.Nodup) (fuel : Nat)
    (hfuel : (input.length).factorial ≤ fuel) :
    ∃ out, driveO (fun g => Gen.gen_perm g input) fuel Gen.new = some out ∧
      out.length = (input.length).factorial ∧ out.Nodup ∧
      ∀ xs, xs ∈ out ↔ xs.Perm input := by
  have hb : ∀ (s : Bool) (fs : List (Nat × Nat)),
      isVP (permTree input) (curs fs) = true →
      (fun g => Gen.gen_perm g input) (Gen.mk s fs 0) =
        some (Gen.mk s (pathD (permTree input) (curs fs))
            (pathD (permTree input) (curs fs)).length,
          outD (permTree input) (curs fs)) := by
    intro s fs hvp
    have h1 := permStep_eq input input.length (List.range input.length) [] fs s
      (List.length_range _) (fun i hi => List.mem_range.mp hi) hvp
    have h2 := runTree_eq (permTree input) [] fs s (fits_of_isVP _ _ hvp)
    simp only [List.nil_append, List.length_nil, Nat.zero_add] at h1 h2
    have h1f : permStep input input.length (List.range input.length)
        (Gen.mk s fs 0) = some (runTree (permTree input) (Gen.mk s fs 0)) := h1
    show Gen.gen_perm (Gen.mk s fs 0) input = _
    rw [Gen.gen_perm, h1f, h2]
  have hlen : (permTree input).leaves.length = (input.length).factorial := by
    rw [show permTree input
        = permTreeAux input input.length (List.range input.length) from rfl]
    exact perm_leaves_length input input.length _ (List.length_range _)
  have hnodup : (permTree input).leaves.Nodup := by
    rw [show permTree input
        = permTreeAux input input.length (List.range input.length) from rfl]
    exact perm_leaves_nodup input hinput input.length _ (List.length_range _)
      (List.nodup_range _) (fun i hi => List.mem_range.mp hi)
  have hsub : ∀ xs ∈ (permTree input).leaves, xs.Perm input := by
    intro xs hxs
    have h := perm_leaves_mem input input.length (List.range input.length)
      (List.length_range _) xs hxs
    rwa [map_getD_range] at h
  have hperm : (permTree input).leaves.Perm input.permutations :=
    (hnodup.subperm (fun xs hxs => List.mem_permutations.mpr (hsub xs hxs))).perm_of_length_le
      (by rw [List.length_permutations, hlen])
  refine ⟨(permTree input).leaves, ?_, hlen, hnodup, ?_⟩
  · exact driveO_new (permTree input) _ hb fuel (by rw [hlen]; exact hfuel)
  · intro xs
    rw [hperm.mem_iff, List.mem_permutations]

theorem claim_c5_witness :
    ([0, 1, 2, 3, 4] : List Nat).Nodup ∧ Nat.factorial 5 ≤ 120 ∧
      (∃ out, driveO (fun g => Gen.gen_perm g ([0, 1, 2, 3, 4] : List Nat)) 120
          Gen.new = some out ∧
        out.length = Nat.factorial 5 ∧ out.Nodup ∧
        ∀ xs, xs ∈ out ↔ xs.Perm ([0, 1, 2, 3, 4] : List Nat)) :=
  ⟨by decide, by decide,
    claim_c5 Nat [0, 1, 2, 3, 4] (by decide) 120 (by decide)⟩
